import Mathlib

/-!
Verification of the incremental detokenizer (src/token_output_stream.rs) and the
autoregressive generation loop (src/text_generation.rs) of the ai-cli repository.

Strings are modelled as lists of characters; Rust byte lengths (String::len,
split_at) are computed through the UTF-8 byte size of each character, so that
the byte-level comparisons and splits of the source are reproduced exactly.
A Rust panic (unwrap on an empty iterator, split_at off a character boundary)
is modelled as the value none of an Option-returning function.
-/

namespace AiCli

/-- UTF-8 encoded byte size of one character, as used by Rust str byte indexing. -/
def utf8Len (c : Char) : Nat :=
  if c.toNat < 128 then 1
  else if c.toNat < 2048 then 2
  else if c.toNat < 65536 then 3
  else 4

/-- Byte length of a string (Rust String::len). -/
def byteLen (s : List Char) : Nat := (s.map utf8Len).sum

/-- Rust str::split_at on a byte index: some (front, back) when the index lies on a
character boundary and within the string, none (a panic) otherwise. -/
def byteSplitAt : List Char → Nat → Option (List Char × List Char)
  | s, 0 => some ([], s)
  | [], _ + 1 => none
  | c :: cs, n + 1 =>
    if utf8Len c ≤ n + 1 then
      match byteSplitAt cs (n + 1 - utf8Len c) with
      | some (a, b) => some (c :: a, b)
      | none => none
    else none

theorem utf8Len_pos (c : Char) : 0 < utf8Len c := by
  unfold utf8Len
  split <;> try simp
  split <;> try simp
  split <;> simp

theorem byteLen_nil : byteLen [] = 0 := rfl

theorem byteLen_append (a b : List Char) : byteLen (a ++ b) = byteLen a + byteLen b := by
  simp [byteLen]

theorem byteLen_eq_zero {s : List Char} : byteLen s = 0 ↔ s = [] := by
  constructor
  · intro h
    cases s with
    | nil => rfl
    | cons c cs =>
      exfalso
      have hc := utf8Len_pos c
      simp [byteLen] at h
      omega
  · intro h; subst h; rfl

theorem byteSplitAt_append (a b : List Char) :
    byteSplitAt (a ++ b) (byteLen a) = some (a, b) := by
  induction a with
  | nil => simp [byteLen, byteSplitAt]
  | cons c cs ih =>
    have hc := utf8Len_pos c
    have hlen : byteLen (c :: cs) = utf8Len c + byteLen cs := by
      simp [byteLen]
    rw [hlen]
    have hform : utf8Len c + byteLen cs = (utf8Len c + byteLen cs - 1) + 1 := by omega
    rw [List.cons_append, hform]
    show byteSplitAt (c :: (cs ++ b)) ((utf8Len c + byteLen cs - 1) + 1) = _
    unfold byteSplitAt
    have hle : utf8Len c ≤ (utf8Len c + byteLen cs - 1) + 1 := by omega
    simp only [if_pos hle]
    have harg : (utf8Len c + byteLen cs - 1) + 1 - utf8Len c = byteLen cs := by omega
    rw [harg, ih]

/-! ## The TokenOutputStream model (src/token_output_stream.rs) -/

/-- The mutable state of TokenOutputStream: the processed tokens and the two
cursor indices.  The tokenizer itself is a parameter (the decode function). -/
structure TokState where
  tokens : List Nat
  prev_index : Nat
  current_index : Nat
deriving DecidableEq

/-- TokenOutputStream::new: empty token list, both indices zero. -/
def TokState.init : TokState := ⟨[], 0, 0⟩

/-- The Rust slice tokens[a..b] as a list operation. -/
def sliceSpan (l : List Nat) (a b : Nat) : List Nat := (l.drop a).take (b - a)

/-- prev_text in next_token and decode_rest: the decode of
tokens[prev_index..current_index], special-cased to the empty string when the
token list is empty. -/
def prevStableText (decode : List Nat → List Char) (st : TokState) : List Char :=
  if st.tokens.isEmpty then [] else decode (sliceSpan st.tokens st.prev_index st.current_index)

/-- The decode of tokens[prev_index..] after the new token has been pushed. -/
def newText (decode : List Nat → List Char) (st : TokState) (token : Nat) : List Char :=
  decode ((st.tokens ++ [token]).drop st.prev_index)

/-- TokenOutputStream::next_token.  Returns none on a Rust panic (the unwrap of
the last character, or split_at off a character boundary); otherwise
some (fragment, new state), with the fragment none when no text is emitted. -/
def nextToken (alnum : Char → Bool) (decode : List Nat → List Char)
    (st : TokState) (token : Nat) : Option (Option (List Char) × TokState) :=
  if byteLen (prevStableText decode st) < byteLen (newText decode st token) then
    match (newText decode st token).getLast? with
    | none => none
    | some c =>
      if alnum c then
        match byteSplitAt (newText decode st token) (byteLen (prevStableText decode st)) with
        | none => none
        | some (_, suffix) =>
          some (some suffix,
            ⟨st.tokens ++ [token], st.current_index, (st.tokens ++ [token]).length⟩)
      else some (none, ⟨st.tokens ++ [token], st.prev_index, st.current_index⟩)
  else some (none, ⟨st.tokens ++ [token], st.prev_index, st.current_index⟩)

/-- TokenOutputStream::decode_rest.  Returns none on a Rust panic (split_at off a
character boundary); otherwise some (optional trailing fragment). -/
def decodeRest (decode : List Nat → List Char) (st : TokState) :
    Option (Option (List Char)) :=
  if byteLen (prevStableText decode st) < byteLen (decode (st.tokens.drop st.prev_index)) then
    match byteSplitAt (decode (st.tokens.drop st.prev_index))
        (byteLen (prevStableText decode st)) with
    | none => none
    | some (_, suffix) => some (some suffix)
  else some none

/-- decode_rest viewed as a method call: it takes the receiver by shared
reference, so the call returns its result together with the (unchanged) state. -/
def decodeRestCall (decode : List Nat → List Char) (st : TokState) :
    Option (Option (List Char)) × TokState :=
  (decodeRest decode st, st)

/-- Feed a list of tokens one at a time through next_token from a given state,
concatenating every emitted fragment; none if any call panics. -/
def feedAll (alnum : Char → Bool) (decode : List Nat → List Char) :
    List Nat → TokState → Option (List Char × TokState)
  | [], st => some ([], st)
  | t :: ts, st =>
    match nextToken alnum decode st t with
    | none => none
    | some (frag, st') =>
      match feedAll alnum decode ts st' with
      | none => none
      | some (out, stf) => some (frag.getD [] ++ out, stf)

/-- The cursor invariant of the detokenizer state. -/
def TokInv (st : TokState) : Prop :=
  st.prev_index ≤ st.current_index ∧ st.current_index ≤ st.tokens.length

/-! ## Detokenizer lemmas under a concatenative codec -/

/-- A codec whose decode distributes over concatenation of token lists. -/
def Concatenative (decode : List Nat → List Char) : Prop :=
  ∀ xs ys, decode (xs ++ ys) = decode xs ++ decode ys

theorem Concatenative.nil {decode : List Nat → List Char} (h : Concatenative decode) :
    decode [] = [] := by
  have h2 := h [] []
  simp only [List.append_nil] at h2
  have := congrArg List.length h2
  simp at this
  exact this

theorem sliceSpan_nil (a b : Nat) : sliceSpan [] a b = [] := by
  simp [sliceSpan]

theorem prevStableText_eq_span {decode : List Nat → List Char}
    (hnil : decode [] = []) (st : TokState) :
    prevStableText decode st = decode (sliceSpan st.tokens st.prev_index st.current_index) := by
  unfold prevStableText
  by_cases h : st.tokens.isEmpty
  · rw [if_pos h]
    have : st.tokens = [] := by
      cases hts : st.tokens with
      | nil => rfl
      | cons a l => rw [hts] at h; simp [List.isEmpty] at h
    rw [this, sliceSpan_nil, hnil]
  · rw [if_neg h]

theorem drop_eq_span_append (l : List Nat) (a b : Nat) (hab : a ≤ b) (hb : b ≤ l.length) :
    l.drop a = sliceSpan l a b ++ l.drop b := by
  have h1 : l.drop b = (l.drop a).drop (b - a) := by
    rw [List.drop_drop]
    congr 1
    omega
  rw [sliceSpan, h1, List.take_append_drop]

theorem drop_append_single (l : List Nat) (t : Nat) (a : Nat) (ha : a ≤ l.length) :
    (l ++ [t]).drop a = l.drop a ++ [t] := by
  rw [List.drop_append_eq_append_drop]
  congr 1
  have h0 : a - l.length = 0 := by omega
  rw [h0]
  simp

theorem take_append_single (l : List Nat) (t : Nat) (a : Nat) (ha : a ≤ l.length) :
    (l ++ [t]).take a = l.take a := by
  exact List.take_append_of_le_length ha

theorem newText_decomp {decode : List Nat → List Char} (hcat : Concatenative decode)
    (st : TokState) (t : Nat) (hinv : TokInv st) :
    newText decode st t =
      decode (sliceSpan st.tokens st.prev_index st.current_index) ++
        decode ((st.tokens ++ [t]).drop st.current_index) := by
  obtain ⟨hpc, hcl⟩ := hinv
  unfold newText
  rw [drop_append_single st.tokens t st.prev_index (le_trans hpc hcl),
    drop_eq_span_append st.tokens st.prev_index st.current_index hpc hcl,
    drop_append_single st.tokens t st.current_index hcl, List.append_assoc, hcat]

/-- One call of next_token under a concatenative codec: it never panics, the
token is appended, the cursor invariant is preserved, and the decode of the
stable region grows by exactly the emitted fragment. -/
theorem nextToken_step {decode : List Nat → List Char} (alnum : Char → Bool)
    (hcat : Concatenative decode) (st : TokState) (t : Nat) (hinv : TokInv st) :
    ∃ frag st', nextToken alnum decode st t = some (frag, st') ∧ TokInv st' ∧
      st'.tokens = st.tokens ++ [t] ∧
      decode (st'.tokens.take st'.current_index) =
        decode (st.tokens.take st.current_index) ++ frag.getD [] := by
  obtain ⟨hpc, hcl⟩ := hinv
  have hnil := hcat.nil
  have hprev := prevStableText_eq_span hnil st
  have htext := newText_decomp hcat st t ⟨hpc, hcl⟩
  set s := st.tokens with hs
  set p := st.prev_index with hp
  set c := st.current_index with hc
  set tail := decode ((s ++ [t]).drop c) with htail
  by_cases hemp : tail = []
  · -- no new stable text: the length test fails and nothing is emitted
    refine ⟨none, ⟨s ++ [t], p, c⟩, ?_, ⟨hpc, by simp; omega⟩, rfl, ?_⟩
    · unfold nextToken
      rw [htext, hemp, List.append_nil, hprev, if_neg (lt_irrefl _)]
    · rw [take_append_single s t c hcl]
      simp
  · -- the new decode strictly extends the previous one
    have hlt : byteLen (prevStableText decode st) < byteLen (newText decode st t) := by
      rw [htext, hprev, byteLen_append]
      have : byteLen tail ≠ 0 := fun h0 => hemp (byteLen_eq_zero.mp h0)
      omega
    have hlast : (newText decode st t).getLast? ≠ none := by
      rw [htext]
      intro hcon
      rw [List.getLast?_eq_none_iff] at hcon
      exact hemp (by cases (List.append_eq_nil.mp hcon) with
        | intro h1 h2 => exact h2)
    obtain ⟨ch, hch⟩ := Option.ne_none_iff_exists'.mp hlast
    by_cases hal : alnum ch = true
    · -- emission branch: split lands exactly at the previous decode
      have hsplit : byteSplitAt (newText decode st t) (byteLen (prevStableText decode st)) =
          some (decode (sliceSpan s p c), tail) := by
        rw [htext, hprev]
        exact byteSplitAt_append _ _
      refine ⟨some tail, ⟨s ++ [t], c, (s ++ [t]).length⟩, ?_, ?_, rfl, ?_⟩
      · unfold nextToken
        rw [if_pos hlt, hch]
        simp only [hal, if_pos]
        rw [hsplit]
      · constructor
        · simp
          omega
        · simp
      · have hfull : (s ++ [t]).take (s ++ [t]).length = s ++ [t] := by
          simp
        rw [hfull]
        conv_lhs => rw [← List.take_append_drop c (s ++ [t])]
        rw [hcat, take_append_single s t c hcl]
        rfl
    · -- last character not alphanumeric: buffered, state indices unchanged
      refine ⟨none, ⟨s ++ [t], p, c⟩, ?_, ⟨hpc, by simp; omega⟩, rfl, ?_⟩
      · unfold nextToken
        rw [if_pos hlt, hch]
        simp only [hal, if_neg]
        simp [hal]
      · rw [take_append_single s t c hcl]
        simp

/-- decode_rest under a concatenative codec: it never panics and the optional
fragment is exactly the decode of the still-pending tokens. -/
theorem decodeRest_spec {decode : List Nat → List Char}
    (hcat : Concatenative decode) (st : TokState) (hinv : TokInv st) :
    ∃ r, decodeRest decode st = some r ∧
      r.getD [] = decode (st.tokens.drop st.current_index) := by
  obtain ⟨hpc, hcl⟩ := hinv
  have hnil := hcat.nil
  have hprev := prevStableText_eq_span hnil st
  have hdec : decode (st.tokens.drop st.prev_index) =
      decode (sliceSpan st.tokens st.prev_index st.current_index) ++
        decode (st.tokens.drop st.current_index) := by
    rw [drop_eq_span_append st.tokens st.prev_index st.current_index hpc hcl, hcat]
  set tail := decode (st.tokens.drop st.current_index) with htail
  by_cases hemp : tail = []
  · refine ⟨none, ?_, by rw [hemp]; rfl⟩
    unfold decodeRest
    rw [hdec, hemp, List.append_nil, hprev, if_neg (lt_irrefl _)]
  · have hlt : byteLen (prevStableText decode st) <
        byteLen (decode (st.tokens.drop st.prev_index)) := by
      rw [hdec, hprev, byteLen_append]
      have : byteLen tail ≠ 0 := fun h0 => hemp (byteLen_eq_zero.mp h0)
      omega
    refine ⟨some tail, ?_, rfl⟩
    unfold decodeRest
    rw [if_pos hlt, hdec, hprev, byteSplitAt_append]

/-- Feeding a token list under a concatenative codec: no call panics, the tokens
accumulate, the invariant is preserved, and the concatenated output is the
growth of the stable-region decode. -/
theorem feedAll_spec {decode : List Nat → List Char} (alnum : Char → Bool)
    (hcat : Concatenative decode) (ts : List Nat) (st : TokState) (hinv : TokInv st) :
    ∃ out stf, feedAll alnum decode ts st = some (out, stf) ∧ TokInv stf ∧
      stf.tokens = st.tokens ++ ts ∧
      decode (stf.tokens.take stf.current_index) =
        decode (st.tokens.take st.current_index) ++ out := by
  induction ts generalizing st with
  | nil =>
    exact ⟨[], st, rfl, hinv, by simp, by simp⟩
  | cons t ts ih =>
    obtain ⟨frag, st', hstep, hinv', htoks', hdec'⟩ := nextToken_step alnum hcat st t hinv
    obtain ⟨out, stf, hfeed, hinvf, htoksf, hdecf⟩ := ih st' hinv'
    refine ⟨frag.getD [] ++ out, stf, ?_, hinvf, ?_, ?_⟩
    · unfold feedAll
      rw [hstep]
      simp only []
      rw [hfeed]
    · rw [htoksf, htoks']
      simp
    · rw [hdecf, hdec', List.append_assoc]

/-! ## Concrete codecs for counterexamples and witnesses -/

/-- A (non-concatenative) codec on which the detokenizer loses text: the pair
of tokens 0, 1 decodes to a string unrelated to the decode of token 0 alone. -/
def cexDecode : List Nat → List Char
  | [0] => ['a']
  | [0, 1] => ['b']
  | _ => []

/-- A (non-concatenative) codec on which next_token would panic in Rust: after
token 0 stabilizes as a two-byte string, the decode of tokens 0, 1 starts with
a three-byte character, so the byte split at index 2 is off a boundary. -/
def cexDecode9 : List Nat → List Char
  | [0] => ['W', '1']
  | [0, 1] => ['€', '1']
  | _ => []

/-- A concatenative codec: every token decodes to the single character a. -/
def unaryDecode : List Nat → List Char := fun ts => ts.map fun _ => 'a'

theorem unaryDecode_cat : Concatenative unaryDecode := by
  intro xs ys
  simp [unaryDecode]

/-! ## Specification predicate for one next_token call (claim C2) -/

/-- The advance condition of next_token as the specification words it: the
decode of tokens[prev_index..] after the append is strictly longer (in bytes)
than the decode of tokens[prev_index..current_index], and its last character
is alphanumeric. -/
def advanceCond (alnum : Char → Bool) (decode : List Nat → List Char)
    (st : TokState) (token : Nat) : Bool :=
  decide (byteLen (decode (sliceSpan st.tokens st.prev_index st.current_index)) <
      byteLen (newText decode st token)) &&
    (match (newText decode st token).getLast? with
     | some c => alnum c
     | none => false)

/-- What one next_token call must do according to the specification: a fragment
is returned exactly when the advance condition holds; then the cursors move
(prev_index to the old current_index, current_index to the new length) and the
fragment is the byte suffix of the new decode past the old decode; otherwise
nothing is returned and the cursors are unchanged. -/
def NextTokenSpec (alnum : Char → Bool) (decode : List Nat → List Char)
    (st : TokState) (token : Nat) (res : Option (List Char)) (st' : TokState) : Prop :=
  (res.isSome = true ↔ advanceCond alnum decode st token = true) ∧
  (advanceCond alnum decode st token = true →
    st' = ⟨st.tokens ++ [token], st.current_index, st.tokens.length + 1⟩ ∧
    res = (byteSplitAt (newText decode st token)
      (byteLen (decode (sliceSpan st.tokens st.prev_index st.current_index)))).map Prod.snd) ∧
  (advanceCond alnum decode st token = false →
    res = none ∧ st' = ⟨st.tokens ++ [token], st.prev_index, st.current_index⟩)

/-! ## Claim C1 -/

/-- C1 counterexample: for an arbitrary codec decode function the claim fails.
With cexDecode, feeding tokens 0 then 1 emits the fragment a, decode_rest adds
nothing, yet the single decode of the full sequence is b: the concatenation of
the fragments does not equal the full decode. -/
theorem C1_counterexample :
    feedAll Char.isAlphanum cexDecode [0, 1] TokState.init =
      some (['a'], ⟨[0, 1], 0, 1⟩) ∧
    decodeRest cexDecode ⟨[0, 1], 0, 1⟩ = some none ∧
    ['a'] ++ ([] : List Char) ≠ cexDecode [0, 1] := by
  refine ⟨by decide, by decide, by decide⟩

/-- C1 (amended): for every concatenative codec decode function (decode of a
concatenation is the concatenation of the decodes), feeding any token sequence
one at a time through next_token and finishing with decode_rest panics nowhere,
and the concatenation of all emitted fragments plus the final decode_rest
fragment equals the single decode of the full sequence; since the output is
built by appending each fragment once, no prefix of it is emitted twice. -/
theorem C1_detokenizer_concat (decode : List Nat → List Char) (alnum : Char → Bool)
    (hcat : Concatenative decode) (ts : List Nat) :
    ∃ out stf r, feedAll alnum decode ts TokState.init = some (out, stf) ∧
      decodeRest decode stf = some r ∧
      out ++ r.getD [] = decode ts := by
  obtain ⟨out, stf, hfeed, hinvf, htoks, hdec⟩ :=
    feedAll_spec alnum hcat ts TokState.init ⟨le_refl 0, by simp [TokState.init]⟩
  obtain ⟨r, hrest, hr⟩ := decodeRest_spec hcat stf hinvf
  refine ⟨out, stf, r, hfeed, hrest, ?_⟩
  have h0 : decode (stf.tokens.take stf.current_index) = out := by
    rw [hdec]
    simp [TokState.init, hcat.nil]
  rw [← h0, hr, ← hcat, List.take_append_drop, htoks]
  simp [TokState.init]

/-- C1 witness: the amended theorem applied to the concatenative codec
unaryDecode and the token sequence 0, 1, 2. -/
theorem C1_witness :
    ∃ out stf r, feedAll Char.isAlphanum unaryDecode [0, 1, 2] TokState.init =
        some (out, stf) ∧
      decodeRest unaryDecode stf = some r ∧
      out ++ r.getD [] = unaryDecode [0, 1, 2] :=
  C1_detokenizer_concat unaryDecode Char.isAlphanum unaryDecode_cat [0, 1, 2]

/-! ## Claim C2 -/

/-- C2: for every call of next_token that returns (no panic), on a codec whose
decode of the empty list is empty, a fragment is returned if and only if the
new decode of tokens[prev_index..] is strictly longer than the decode of
tokens[prev_index..current_index] and ends in an alphanumeric character; in
that case prev_index becomes the old current_index, current_index becomes the
new history length, and the fragment is the byte suffix of the new decode past
the old decode; otherwise nothing is returned and the indices are unchanged. -/
theorem C2_nextToken_spec (alnum : Char → Bool) (decode : List Nat → List Char)
    (st : TokState) (token : Nat) (res : Option (List Char)) (st' : TokState)
    (hempty : decode [] = [])
    (h : nextToken alnum decode st token = some (res, st')) :
    NextTokenSpec alnum decode st token res st' := by
  have hprev := prevStableText_eq_span hempty st
  unfold nextToken at h
  rw [hprev] at h
  by_cases hlt : byteLen (decode (sliceSpan st.tokens st.prev_index st.current_index)) <
      byteLen (newText decode st token)
  · rw [if_pos hlt] at h
    cases hgl : (newText decode st token).getLast? with
    | none =>
      rw [hgl] at h
      exact absurd h (by simp)
    | some c =>
      rw [hgl] at h
      simp only [] at h
      by_cases hal : alnum c = true
      · rw [if_pos hal] at h
        cases hsp : byteSplitAt (newText decode st token)
            (byteLen (decode (sliceSpan st.tokens st.prev_index st.current_index))) with
        | none =>
          rw [hsp] at h
          exact absurd h (by simp)
        | some pr =>
          obtain ⟨pre, suf⟩ := pr
          rw [hsp] at h
          simp only [Option.some.injEq, Prod.mk.injEq] at h
          obtain ⟨hres, hst'⟩ := h
          have hcond : advanceCond alnum decode st token = true := by
            unfold advanceCond
            rw [hgl]
            simp [hlt, hal]
          refine ⟨?_, ?_, ?_⟩
          · rw [hcond, ← hres]
            simp
          · intro _
            refine ⟨?_, ?_⟩
            · rw [← hst']
              simp
            · rw [hsp, ← hres]
              rfl
          · intro hcon
            rw [hcond] at hcon
            exact absurd hcon (by simp)
      · rw [if_neg hal] at h
        simp only [Option.some.injEq, Prod.mk.injEq] at h
        obtain ⟨hres, hst'⟩ := h
        have hcond : advanceCond alnum decode st token = false := by
          unfold advanceCond
          rw [hgl]
          simp [hal]
        refine ⟨?_, ?_, ?_⟩
        · rw [hcond, ← hres]
          simp
        · intro hcon
          rw [hcond] at hcon
          exact absurd hcon (by simp)
        · intro _
          exact ⟨hres.symm, hst'.symm⟩
  · rw [if_neg hlt] at h
    simp only [Option.some.injEq, Prod.mk.injEq] at h
    obtain ⟨hres, hst'⟩ := h
    have hcond : advanceCond alnum decode st token = false := by
      unfold advanceCond
      simp [hlt]
    refine ⟨?_, ?_, ?_⟩
    · rw [hcond, ← hres]
      simp
    · intro hcon
      rw [hcond] at hcon
      exact absurd hcon (by simp)
    · intro _
      exact ⟨hres.symm, hst'.symm⟩

/-- C2 witness: the theorem applied to the codec unaryDecode, the initial state
and token 0, where the call emits the fragment a. -/
theorem C2_witness :
    NextTokenSpec Char.isAlphanum unaryDecode TokState.init 0 (some ['a']) ⟨[0], 0, 1⟩ :=
  C2_nextToken_spec Char.isAlphanum unaryDecode TokState.init 0 (some ['a']) ⟨[0], 0, 1⟩
    rfl (by decide)

/-! ## Claim C8 -/

/-- C8: decode_rest takes the receiver by shared reference, so the call leaves
the token history and both cursor indices unchanged, and two consecutive calls
with no intervening next_token return equal results. -/
theorem C8_decodeRest_frame (decode : List Nat → List Char) (st : TokState) :
    (decodeRestCall decode st).2.tokens = st.tokens ∧
    (decodeRestCall decode st).2.prev_index = st.prev_index ∧
    (decodeRestCall decode st).2.current_index = st.current_index ∧
    (decodeRestCall decode (decodeRestCall decode st).2).1 =
      (decodeRestCall decode st).1 :=
  ⟨rfl, rfl, rfl, rfl⟩

/-! ## Claim C9 -/

/-- C9 counterexample: for an arbitrary codec decode function next_token is not
panic-free. With cexDecode9, token 0 stabilizes the two-byte fragment W1; the
decode after token 1 is a Euro sign followed by 1, whose byte 2 is inside the
three-byte Euro character, so the Rust split_at(2) panics (modelled as none). -/
theorem C9_counterexample :
    nextToken Char.isAlphanum cexDecode9 TokState.init 0 =
      some (some ['W', '1'], ⟨[0], 0, 1⟩) ∧
    nextToken Char.isAlphanum cexDecode9 ⟨[0], 0, 1⟩ 1 = none := by
  refine ⟨by decide, by decide⟩

/-- C9 (amended): the last-character unwrap never fails (the emission branch
implies a non-empty decode), and on every concatenative codec the previous
stable decode is a byte prefix of the new decode, so the split index always
lies on a character boundary and next_token never panics from any state
satisfying the cursor invariant. -/
theorem C9_no_panic (decode : List Nat → List Char) (alnum : Char → Bool)
    (st : TokState) (t : Nat) (hcat : Concatenative decode) (hinv : TokInv st) :
    nextToken alnum decode st t ≠ none := by
  obtain ⟨frag, st', hstep, _⟩ := nextToken_step alnum hcat st t hinv
  rw [hstep]
  simp

/-- C9 witness: the amended theorem applied to the concatenative codec
unaryDecode at the initial state with token 5. -/
theorem C9_witness : nextToken Char.isAlphanum unaryDecode TokState.init 5 ≠ none :=
  C9_no_panic unaryDecode Char.isAlphanum TokState.init 5 unaryDecode_cat
    ⟨le_refl 0, by simp [TokState.init]⟩

/-! ## The generation loop model (src/text_generation.rs) -/

/-- One logit transformed by the repetition penalty: scaled toward zero by the
factor when its index occurs in the trailing window, untouched otherwise. -/
def penalizeAt (factor : ℚ) (window : List Nat) (i : Nat) (s : ℚ) : ℚ :=
  if i ∈ window then (if 0 < s then s / factor else s * factor) else s

def applyRepeatPenaltyAux (factor : ℚ) (window : List Nat) : Nat → List ℚ → List ℚ
  | _, [] => []
  | i, s :: rest => penalizeAt factor window i s :: applyRepeatPenaltyAux factor window (i + 1) rest

/-- Modelled from the spec: the numeric kernel
candle_transformers::utils::apply_repeat_penalty is an external library call
not present in this repository; per the specification it scales, for each
vocabulary index present in the trailing window, the score toward zero by
dividing by the factor when positive and multiplying by the factor otherwise,
leaving indices absent from the window untouched. -/
def apply_repeat_penalty (factor : ℚ) (logits : List ℚ) (window : List Nat) : List ℚ :=
  applyRepeatPenaltyAux factor window 0 logits

/-- The repetition-penalty stage of the loop: the identity short-circuit for
factor 1, otherwise the penalty applied to the trailing repeat_last_n tokens
of the history (saturating at the start). -/
def penStage (factor : ℚ) (lastN : Nat) (logits : List ℚ) (toks : List Nat) : List ℚ :=
  if factor = 1 then logits
  else apply_repeat_penalty factor logits (toks.drop (toks.length - lastN))

/-- The collaborators of TextGeneration::run: the codec (encode, decode, the
stop-token lookup), the penalty configuration, the model forward pass (window
of token ids and position offset to one score per vocabulary entry), and the
seeded sampler threading its pseudo-random state of type S. -/
structure GenCfg (S : Type) where
  encode : List Char → List Nat
  eosLookup : Option Nat
  repeat_penalty : ℚ
  repeat_last_n : Nat
  forward : List Nat → Nat → List ℚ
  sample : S → List ℚ → Nat × S
  alnum : Char → Bool
  decode : List Nat → List Char

/-- The state threaded through the generation loop, together with the
observable effects: fragments written to the sink and the trace of
(window, position) pairs passed to the model. -/
structure LoopSt (S : Type) where
  tokens : List Nat
  generated : Nat
  pos : Nat
  rng : S
  tok : TokState
  written : List (List Char)
  trace : List (List Nat × Nat)
  stopped : Bool
  panicked : Bool

/-- Context size for one step: the full history length at index 0 (the priming
step), a single token afterwards (src/text_generation.rs line 107). -/
def contextSize (index : Nat) (toks : List Nat) : Nat :=
  if index > 0 then 1 else toks.length

/-- The context window: the trailing contextSize tokens of the history
(src/text_generation.rs line 108, with saturating subtraction). -/
def contextWindow (index : Nat) (toks : List Nat) : List Nat :=
  toks.drop (toks.length - contextSize index toks)

/-- Forward pass, penalty stage and sampling of one step: the model receives
the context window and the current position offset, the penalty stage the
trailing history window, and the sampler its threaded random state. -/
def sampleStep {S : Type} (cfg : GenCfg S) (index : Nat) (st : LoopSt S) : Nat × S :=
  cfg.sample st.rng (penStage cfg.repeat_penalty cfg.repeat_last_n
    (cfg.forward (contextWindow index st.tokens) st.pos) st.tokens)

/-- History update of one step: push the sampled token, count it as generated,
thread the sampler state, and record the (window, position) pair the model
was invoked with. -/
def pushToken {S : Type} (cfg : GenCfg S) (index : Nat) (st : LoopSt S) : LoopSt S :=
  { st with
    tokens := st.tokens ++ [(sampleStep cfg index st).1]
    generated := st.generated + 1
    rng := (sampleStep cfg index st).2
    trace := st.trace ++ [(contextWindow index st.tokens, st.pos)] }

/-- The main generation loop of run, one iteration per unit of fuel, following
src/text_generation.rs lines 105 to 154: select the context window (full
history at index 0, the single newest token after), invoke the model, apply
the penalty stage, sample, append the token, break on the stop token after a
final decode_rest, otherwise emit the next_token fragment and advance the
position by the window size. -/
def runLoop {S : Type} (cfg : GenCfg S) (eos : Nat) : Nat → Nat → LoopSt S → LoopSt S
  | 0, _, st => st
  | fuel + 1, index, st =>
    if (sampleStep cfg index st).1 = eos then
      match decodeRest cfg.decode (pushToken cfg index st).tok with
      | none => { pushToken cfg index st with panicked := true }
      | some r =>
        { pushToken cfg index st with
          written := (pushToken cfg index st).written ++ r.toList
          stopped := true }
    else
      match nextToken cfg.alnum cfg.decode (pushToken cfg index st).tok
          (sampleStep cfg index st).1 with
      | none => { pushToken cfg index st with panicked := true }
      | some (frag, tok') =>
        runLoop cfg eos fuel (index + 1)
          { pushToken cfg index st with
            tok := tok'
            written := (pushToken cfg index st).written ++ frag.toList
            pos := st.pos + contextSize index st.tokens }

/-- The error taxonomy of run that the model distinguishes. -/
inductive GenErr
  | emptyPrompt
  | noEosToken
  | tokenizerPanic
deriving DecidableEq

/-- The observable outcome of one run call: the Result value handed to the
caller (none means Ok of unit, as in the Rust signature), the sink contents
and flush state, the generated-token counter, the model call trace, the final
token history, the detokenizer history, and the logged statistics. -/
structure RunOut where
  res : Option GenErr
  written : List (List Char)
  flushed : Bool
  generated : Nat
  trace : List (List Nat × Nat)
  finalTokens : List Nat
  tokTokens : List Nat
  logged : Option Nat
  stopped : Bool
deriving DecidableEq

/-- Outcome of run when a pre-loop check fails: the error is surfaced, nothing
was written to the sink, the sink is not flushed and no model call happened. -/
def errOut (e : GenErr) (toks : List Nat) : RunOut :=
  { res := some e
    written := []
    flushed := false
    generated := 0
    trace := []
    finalTokens := toks
    tokTokens := []
    logged := none
    stopped := false }

/-- Loop state at entry of the generation loop: history is the prompt tokens,
counters are zero, the detokenizer is fresh, and the prompt text has just been
written verbatim to the sink. -/
def initSt {S : Type} (s0 : S) (ptoks : List Nat) (prompt : List Char) : LoopSt S :=
  { tokens := ptoks
    generated := 0
    pos := 0
    rng := s0
    tok := TokState.init
    written := [prompt]
    trace := []
    stopped := false
    panicked := false }

/-- Outcome of run assembled from the final loop state: on the non-panicking
paths the sink is flushed, the statistics are logged and Ok of unit (res none)
is returned. -/
def mkOut {S : Type} (final : LoopSt S) : RunOut :=
  { res := if final.panicked then some .tokenizerPanic else none
    written := final.written
    flushed := !final.panicked
    generated := final.generated
    trace := final.trace
    finalTokens := final.tokens
    tokTokens := final.tok.tokens
    logged := if final.panicked then none else some final.generated
    stopped := final.stopped }

/-- TextGeneration::run (src/text_generation.rs lines 63 to 166): encode the
prompt, fail on an empty token sequence, look up the stop token, write the
prompt verbatim to the sink, run the loop, then flush the sink and log the
generated-token count; the function returns Ok of unit. -/
def run {S : Type} (cfg : GenCfg S) (s0 : S) (prompt : List Char) (sampleLen : Nat) : RunOut :=
  if (cfg.encode prompt).isEmpty then errOut .emptyPrompt (cfg.encode prompt)
  else
    match cfg.eosLookup with
    | none => errOut .noEosToken (cfg.encode prompt)
    | some eos => mkOut (runLoop cfg eos sampleLen 0 (initSt s0 (cfg.encode prompt) prompt))

/-! ## Concrete fake models and samplers for scenarios -/

def argmaxIdxAux : Nat → Nat → ℚ → List ℚ → Nat
  | _, best, _, [] => best
  | i, best, bestv, x :: rest =>
    if bestv < x then argmaxIdxAux (i + 1) i x rest
    else argmaxIdxAux (i + 1) best bestv rest

/-- Deterministic arg-max selection over a score vector (temperature absent). -/
def argmaxIdx : List ℚ → Nat
  | [] => 0
  | x :: rest => argmaxIdxAux 1 0 x rest

/-- A fake position-addressed setup: a 3-token prompt, a model whose scores are
irrelevant, and a sampler that always picks token 7 (never the stop token). -/
def cfgOffsets : GenCfg Unit :=
  { encode := fun _ => [10, 11, 12]
    eosLookup := some 99
    repeat_penalty := 1
    repeat_last_n := 64
    forward := fun _ _ => [1]
    sample := fun s _ => (7, s)
    alnum := Char.isAlphanum
    decode := fun _ => [] }

/-- The stop-token scenario: a fake model that always returns the stop token
index (2) with maximal score, sampled by deterministic arg-max. -/
def cfgStop : GenCfg Unit :=
  { encode := fun _ => [5]
    eosLookup := some 2
    repeat_penalty := 1
    repeat_last_n := 4
    forward := fun _ _ => [0, 0, 1]
    sample := fun s lg => (argmaxIdx lg, s)
    alnum := Char.isAlphanum
    decode := fun _ => [] }

/-! ## The loop invariant of run -/

theorem drop_length_sub_one (l : List Nat) (h : l ≠ []) :
    l.drop (l.length - 1) = [l.getD (l.length - 1) 0] := by
  induction l with
  | nil => exact absurd rfl h
  | cons a l ih =>
    by_cases hnil : l = []
    · subst hnil
      simp
    · have hlen : (a :: l).length - 1 = (l.length - 1) + 1 := by
        cases l with
        | nil => exact absurd rfl hnil
        | cons b m => simp
      rw [hlen, List.drop_succ_cons, List.getD_cons_succ, ih hnil]

/-- The content of the model-call trace: the window passed at step 0 is the
whole prompt, the window at a later step i is the single token of the history
at position L + i - 1 (the most recently generated one), and the position
offset passed at step i is 0 at step 0 and L + i - 1 after. -/
def TraceOK (ptoks : List Nat) (trace : List (List Nat × Nat)) (toks : List Nat) : Prop :=
  ∀ i, i < trace.length →
    trace.getD i ([], 0) =
      (if i = 0 then ptoks else [toks.getD (ptoks.length + i - 1) 0],
       if i = 0 then 0 else ptoks.length + i - 1)

/-- The invariant holding at the head of each iteration of runLoop. -/
def LoopInv {S : Type} (eos : Nat) (ptoks : List Nat) (prompt : List Char)
    (index : Nat) (st : LoopSt S) : Prop :=
  st.tokens.length = ptoks.length + index ∧
  st.tokens.take ptoks.length = ptoks ∧
  st.generated = index ∧
  st.trace.length = index ∧
  st.pos = (if index = 0 then 0 else ptoks.length + index - 1) ∧
  TraceOK ptoks st.trace st.tokens ∧
  st.tok.tokens = (st.tokens.drop ptoks.length).filter (fun t => decide (t ≠ eos)) ∧
  st.panicked = false ∧
  st.stopped = false ∧
  (∃ rest, st.written = prompt :: rest) ∧
  eos ∉ st.tokens.drop ptoks.length

/-- What holds of the loop state when runLoop returns, however it ended: the
counters, the trace, the prompt prefix and the detokenizer history as before,
and about the stop check: whenever the loop ended through it (stopped), the
run did not panic, the last history token is the stop token, and the sink
content is the pre-stop content extended by exactly the decode_rest flush
fragment; conversely a loop that ended without stopping never sampled the
stop token at any step. -/
def FinalOK {S : Type} (eos : Nat) (ptoks : List Nat) (prompt : List Char)
    (decode : List Nat → List Char) (st' : LoopSt S) : Prop :=
  st'.generated = st'.trace.length ∧
  st'.tokens.take ptoks.length = ptoks ∧
  st'.tokens.length = ptoks.length + st'.generated ∧
  TraceOK ptoks st'.trace st'.tokens ∧
  (∃ rest, st'.written = prompt :: rest) ∧
  (st'.panicked = false →
    st'.tok.tokens = (st'.tokens.drop ptoks.length).filter (fun t => decide (t ≠ eos))) ∧
  (st'.stopped = true →
    st'.panicked = false ∧
    st'.tokens.getLast? = some eos ∧
    ∃ w r, decodeRest decode st'.tok = some r ∧ st'.written = w ++ r.toList ∧
      ∃ w2, w = prompt :: w2) ∧
  (st'.panicked = false → st'.stopped = false →
    eos ∉ st'.tokens.drop ptoks.length)

theorem traceOK_extend (ptoks : List Nat) (trace : List (List Nat × Nat))
    (toks : List Nat) (tk : Nat) (ctxt : List Nat) (pos : Nat)
    (hlen : toks.length = ptoks.length + trace.length)
    (hOK : TraceOK ptoks trace toks)
    (hctxt : ctxt = if trace.length = 0 then ptoks
      else [toks.getD (ptoks.length + trace.length - 1) 0])
    (hpos : pos = if trace.length = 0 then 0 else ptoks.length + trace.length - 1) :
    TraceOK ptoks (trace ++ [(ctxt, pos)]) (toks ++ [tk]) := by
  intro i hi
  simp only [List.length_append, List.length_cons, List.length_nil] at hi
  by_cases hio : i < trace.length
  · rw [List.getD_append _ _ _ _ hio, hOK i hio]
    by_cases h0 : i = 0
    · simp [h0]
    · have harg : ptoks.length + i - 1 < toks.length := by omega
      simp only [if_neg h0]
      rw [List.getD_append _ _ _ _ harg]
  · have hieq : i = trace.length := by omega
    rw [List.getD_append_right _ _ _ _ (by omega)]
    subst hieq
    simp only [Nat.sub_self, List.getD_cons_zero]
    rw [hctxt, hpos]
    by_cases h0 : trace.length = 0
    · simp [h0]
    · have harg : ptoks.length + trace.length - 1 < toks.length := by omega
      rw [if_neg h0, if_neg h0, if_neg h0, List.getD_append _ _ _ _ harg]

theorem nextToken_tokens_append (alnum : Char → Bool) (decode : List Nat → List Char)
    (st : TokState) (token : Nat) (r : Option (List Char) × TokState)
    (h : nextToken alnum decode st token = some r) :
    r.2.tokens = st.tokens ++ [token] := by
  unfold nextToken at h
  by_cases h1 : byteLen (prevStableText decode st) < byteLen (newText decode st token)
  · rw [if_pos h1] at h
    cases hgl : (newText decode st token).getLast? with
    | none =>
      rw [hgl] at h
      cases h
    | some c =>
      rw [hgl] at h
      simp only [] at h
      by_cases hal : alnum c = true
      · rw [if_pos hal] at h
        cases hsp : byteSplitAt (newText decode st token) (byteLen (prevStableText decode st)) with
        | none =>
          rw [hsp] at h
          cases h
        | some pr =>
          obtain ⟨a, b⟩ := pr
          rw [hsp] at h
          simp only [] at h
          cases h
          rfl
      · rw [if_neg hal] at h
        cases h
        rfl
  · rw [if_neg h1] at h
    cases h
    rfl

@[simp] theorem pushToken_tokens {S : Type} (cfg : GenCfg S) (index : Nat) (st : LoopSt S) :
    (pushToken cfg index st).tokens = st.tokens ++ [(sampleStep cfg index st).1] := rfl

@[simp] theorem pushToken_generated {S : Type} (cfg : GenCfg S) (index : Nat) (st : LoopSt S) :
    (pushToken cfg index st).generated = st.generated + 1 := rfl

@[simp] theorem pushToken_trace {S : Type} (cfg : GenCfg S) (index : Nat) (st : LoopSt S) :
    (pushToken cfg index st).trace =
      st.trace ++ [(contextWindow index st.tokens, st.pos)] := rfl

@[simp] theorem pushToken_tok {S : Type} (cfg : GenCfg S) (index : Nat) (st : LoopSt S) :
    (pushToken cfg index st).tok = st.tok := rfl

@[simp] theorem pushToken_written {S : Type} (cfg : GenCfg S) (index : Nat) (st : LoopSt S) :
    (pushToken cfg index st).written = st.written := rfl

@[simp] theorem pushToken_pos {S : Type} (cfg : GenCfg S) (index : Nat) (st : LoopSt S) :
    (pushToken cfg index st).pos = st.pos := rfl

@[simp] theorem pushToken_stopped {S : Type} (cfg : GenCfg S) (index : Nat) (st : LoopSt S) :
    (pushToken cfg index st).stopped = st.stopped := rfl

@[simp] theorem pushToken_panicked {S : Type} (cfg : GenCfg S) (index : Nat) (st : LoopSt S) :
    (pushToken cfg index st).panicked = st.panicked := rfl

/-- The master induction over the generation loop: from any state satisfying
the loop invariant, the final state satisfies FinalOK whichever way the loop
ends (stop token, exhausted budget, or a detokenizer panic). -/
theorem runLoop_master {S : Type} (cfg : GenCfg S) (eos : Nat) (ptoks : List Nat)
    (prompt : List Char) (hne : ptoks ≠ []) :
    ∀ (fuel index : Nat) (st : LoopSt S), LoopInv eos ptoks prompt index st →
      FinalOK eos ptoks prompt cfg.decode (runLoop cfg eos fuel index st) := by
  intro fuel
  induction fuel with
  | zero =>
    intro index st hJ
    obtain ⟨h1, h2, h3, h4, _, h6, h7, _, h9, h10, h11⟩ := hJ
    show FinalOK eos ptoks prompt cfg.decode st
    refine ⟨by rw [h3, h4], h2, by rw [h3, h1], h6, h10, fun _ => h7, ?_, fun _ _ => h11⟩
    intro hcon
    rw [h9] at hcon
    cases hcon
  | succ fuel ih =>
    intro index st hJ
    obtain ⟨hlen, htake, hgen, htr, hpos, hOK, hdetok, hpan, hstop, ⟨rest, hwr⟩, heosn⟩ := hJ
    have hL : 0 < ptoks.length := by
      cases hp : ptoks with
      | nil => exact absurd hp hne
      | cons a l => simp [hp]
    have htne : st.tokens ≠ [] := by
      intro hcon
      rw [hcon] at hlen
      simp at hlen
      omega
    have hLle : ptoks.length ≤ st.tokens.length := by omega
    have hctxt : contextWindow index st.tokens =
        (if index = 0 then ptoks else [st.tokens.getD (ptoks.length + index - 1) 0]) := by
      by_cases h0 : index = 0
      · subst h0
        have hteq : st.tokens = ptoks := by
          have h1 : st.tokens.take ptoks.length = st.tokens :=
            List.take_of_length_le (by omega)
          rw [h1] at htake
          exact htake

        simp [contextWindow, contextSize, hteq]
      · have h1 : contextSize index st.tokens = 1 := by
          unfold contextSize
          rw [if_pos (by omega)]
        rw [if_neg h0]
        unfold contextWindow
        rw [h1]
        rw [drop_length_sub_one st.tokens htne, hlen]
    have hOK' : TraceOK ptoks (pushToken cfg index st).trace (pushToken cfg index st).tokens := by
      rw [pushToken_trace, pushToken_tokens]
      apply traceOK_extend ptoks st.trace st.tokens _ _ _ (by omega) hOK
      · rw [htr, hctxt]
      · rw [htr, hpos]
    have htakeP : (pushToken cfg index st).tokens.take ptoks.length = ptoks := by
      rw [pushToken_tokens, take_append_single _ _ _ hLle, htake]
    have hwrP : ∃ r, (pushToken cfg index st).written = prompt :: r :=
      ⟨rest, by rw [pushToken_written, hwr]⟩
    rw [runLoop]
    by_cases htk : (sampleStep cfg index st).1 = eos
    · rw [if_pos htk]
      cases hdr : decodeRest cfg.decode (pushToken cfg index st).tok with
      | none =>
        refine ⟨?_, ?_, ?_, ?_, ?_, ?_, ?_, ?_⟩
        · simp [htr, hgen]
        · exact htakeP
        · simp [hlen, hgen, Nat.add_assoc]
        · exact hOK'
        · exact hwrP
        · intro hcon
          simp at hcon
        · intro hcon
          rw [show ({ pushToken cfg index st with panicked := true } : LoopSt S).stopped
            = st.stopped from rfl, hstop] at hcon
          cases hcon
        · intro hcon
          simp at hcon
      | some r =>
        refine ⟨?_, ?_, ?_, ?_, ?_, ?_, ?_, ?_⟩
        · simp [htr, hgen]
        · exact htakeP
        · simp [hlen, hgen, Nat.add_assoc]
        · exact hOK'
        · exact ⟨rest ++ r.toList, by simp [hwr]⟩
        · intro _
          show st.tok.tokens = _
          rw [hdetok]
          simp only [pushToken_tokens, htk]
          rw [drop_append_single _ _ _ hLle, List.filter_append]
          simp
        · intro _
          refine ⟨by simp [hpan], ?_, st.written, r, hdr, rfl, rest, hwr⟩
          show ((pushToken cfg index st).tokens).getLast? = some eos
          simp only [pushToken_tokens, htk]
          simp
        · intro _ hcon
          simp at hcon
    · rw [if_neg htk]
      cases hnt : nextToken cfg.alnum cfg.decode (pushToken cfg index st).tok
          (sampleStep cfg index st).1 with
      | none =>
        refine ⟨?_, ?_, ?_, ?_, ?_, ?_, ?_, ?_⟩
        · simp [htr, hgen]
        · exact htakeP
        · simp [hlen, hgen, Nat.add_assoc]
        · exact hOK'
        · exact hwrP
        · intro hcon
          simp at hcon
        · intro hcon
          rw [show ({ pushToken cfg index st with panicked := true } : LoopSt S).stopped
            = st.stopped from rfl, hstop] at hcon
          cases hcon
        · intro hcon
          simp at hcon
      | some pr =>
        obtain ⟨frag, tok'⟩ := pr
        apply ih (index + 1)
        refine ⟨?_, ?_, ?_, ?_, ?_, ?_, ?_, ?_, ?_, ?_, ?_⟩
        · simp [hlen, Nat.add_assoc]
        · exact htakeP
        · simp [hgen]
        · simp [htr]
        · show st.pos + contextSize index st.tokens = _
          rw [if_neg (by omega : ¬ index + 1 = 0)]
          unfold contextSize
          by_cases h0 : index = 0
          · subst h0
            rw [hpos]
            rw [if_pos rfl, if_neg (by omega : ¬ (0 : Nat) > 0)]
            omega
          · rw [hpos, if_neg h0, if_pos (by omega : index > 0)]
            omega
        · exact hOK'
        · show tok'.tokens = _
          have happ := nextToken_tokens_append cfg.alnum cfg.decode
            (pushToken cfg index st).tok (sampleStep cfg index st).1 (frag, tok') hnt
          simp only [pushToken_tok] at happ
          rw [happ, hdetok]
          simp only [pushToken_tokens]
          rw [drop_append_single _ _ _ hLle, List.filter_append]
          simp [htk]
        · simp [hpan]
        · simp [hstop]
        · exact ⟨rest ++ frag.toList, by simp [hwr]⟩
        · show eos ∉ (st.tokens ++ [(sampleStep cfg index st).1]).drop ptoks.length
          rw [drop_append_single _ _ _ hLle]
          simp only [List.mem_append, List.mem_singleton]
          rintro (h | h)
          · exact heosn h
          · exact htk h.symm

/-! ## Bridging run to the loop invariant -/

theorem contextWindow_zero (l : List Nat) : contextWindow 0 l = l := by
  unfold contextWindow contextSize
  simp

@[simp] theorem mkOut_res {S : Type} (final : LoopSt S) :
    (mkOut final).res = (if final.panicked then some .tokenizerPanic else none) := rfl

@[simp] theorem mkOut_written {S : Type} (final : LoopSt S) :
    (mkOut final).written = final.written := rfl

@[simp] theorem mkOut_flushed {S : Type} (final : LoopSt S) :
    (mkOut final).flushed = !final.panicked := rfl

@[simp] theorem mkOut_generated {S : Type} (final : LoopSt S) :
    (mkOut final).generated = final.generated := rfl

@[simp] theorem mkOut_trace {S : Type} (final : LoopSt S) :
    (mkOut final).trace = final.trace := rfl

@[simp] theorem mkOut_finalTokens {S : Type} (final : LoopSt S) :
    (mkOut final).finalTokens = final.tokens := rfl

@[simp] theorem mkOut_tokTokens {S : Type} (final : LoopSt S) :
    (mkOut final).tokTokens = final.tok.tokens := rfl

@[simp] theorem mkOut_logged {S : Type} (final : LoopSt S) :
    (mkOut final).logged = (if final.panicked then none else some final.generated) := rfl

@[simp] theorem mkOut_stopped {S : Type} (final : LoopSt S) :
    (mkOut final).stopped = final.stopped := rfl

theorem isEmpty_false_of_ne_nil {l : List Nat} (h : l ≠ []) : l.isEmpty = false := by
  cases l with
  | nil => exact absurd rfl h
  | cons a m => rfl

theorem run_eq_mkOut {S : Type} (cfg : GenCfg S) (s0 : S) (prompt : List Char)
    (sampleLen : Nat) (eos : Nat)
    (hne : cfg.encode prompt ≠ []) (heos : cfg.eosLookup = some eos) :
    run cfg s0 prompt sampleLen =
      mkOut (runLoop cfg eos sampleLen 0 (initSt s0 (cfg.encode prompt) prompt)) := by
  unfold run
  rw [heos, isEmpty_false_of_ne_nil hne]
  rfl

theorem initSt_inv {S : Type} (s0 : S) (eos : Nat) (ptoks : List Nat) (prompt : List Char) :
    LoopInv eos ptoks prompt 0 (initSt s0 ptoks prompt) := by
  refine ⟨by simp [initSt], ?_, rfl, rfl, rfl, ?_, ?_, rfl, rfl, ⟨[], rfl⟩, ?_⟩
  · show ptoks.take ptoks.length = ptoks
    exact List.take_length ptoks
  · intro i hi
    simp [initSt] at hi
  · show TokState.init.tokens = (ptoks.drop ptoks.length).filter _
    rw [List.drop_length]
    rfl
  · show eos ∉ ptoks.drop ptoks.length
    rw [List.drop_length]
    simp

/-! ## Claim C3 -/

/-- The window and position property of run: one trace entry per generated
token; the window of entry 0 is the full prompt history with offset 0, and the
window of every later entry i is exactly the single history token at position
L + i - 1 (the most recently generated token) with offset L + i - 1, i.e. each
offset advances past the previous one by the previous window size. -/
def RunTraceSpec {S : Type} (cfg : GenCfg S) (s0 : S) (prompt : List Char)
    (sampleLen : Nat) : Prop :=
  (run cfg s0 prompt sampleLen).trace.length = (run cfg s0 prompt sampleLen).generated ∧
  TraceOK (cfg.encode prompt) (run cfg s0 prompt sampleLen).trace
    (run cfg s0 prompt sampleLen).finalTokens

/-- C3 counterexample: with a 3-token prompt and 2 generated tokens the
recorded offsets are exactly 0 and 3 — two model invocations, one per
generated token — not the three offsets 0, 3, 4 the claim asserts. -/
theorem C3_counterexample :
    (cfgOffsets.encode ['p']).length = 3 ∧
    (run cfgOffsets () ['p'] 2).generated = 2 ∧
    (run cfgOffsets () ['p'] 2).trace.map Prod.snd = [0, 3] ∧
    (run cfgOffsets () ['p'] 2).trace.map Prod.snd ≠ [0, 3, 4] := by
  refine ⟨by decide, by decide, by decide, by decide⟩

/-- C3 (amended): for every run with a non-empty prompt and a resolvable stop
token, the model sees the entire current history at step 0 and exactly the
single most recently generated token at every later step, and the position
offset passed at each step advances past the previous one by the previous
window size (so offsets are 0, L, L+1, ... for prompt length L); in particular
a 3-token prompt with 2 generated tokens records offsets 0 and 3, while
offsets 0, 3, 4 correspond to 3 generated tokens. -/
theorem C3_window_and_position {S : Type} (cfg : GenCfg S) (s0 : S) (prompt : List Char)
    (sampleLen : Nat) (eos : Nat)
    (hne : cfg.encode prompt ≠ []) (heos : cfg.eosLookup = some eos) :
    RunTraceSpec cfg s0 prompt sampleLen := by
  have hfin := runLoop_master cfg eos (cfg.encode prompt) prompt hne sampleLen 0
    (initSt s0 (cfg.encode prompt) prompt) (initSt_inv s0 eos (cfg.encode prompt) prompt)
  obtain ⟨hg, _, _, hOK, _, _, _, _⟩ := hfin
  unfold RunTraceSpec
  rw [run_eq_mkOut cfg s0 prompt sampleLen eos hne heos]
  simp only [mkOut_trace, mkOut_generated, mkOut_finalTokens]
  exact ⟨hg.symm, hOK⟩

/-- C3 witness: the amended theorem applied to the 3-token-prompt fake model
configuration. -/
theorem C3_witness : RunTraceSpec cfgOffsets () ['p'] 2 :=
  C3_window_and_position cfgOffsets () ['p'] 2 99 (by decide) rfl

/-! ## Claim C10 -/

/-- The detokenizer-history property of run: the detokenizer has been fed
exactly the generated tokens (the history past the prompt) minus the stop
token, in order; the stop token is never in it; the history starts with the
prompt tokens; and the first sink write is the verbatim prompt text. -/
def RunDetokSpec {S : Type} (cfg : GenCfg S) (s0 : S) (prompt : List Char)
    (sampleLen : Nat) (eos : Nat) : Prop :=
  (run cfg s0 prompt sampleLen).tokTokens =
    ((run cfg s0 prompt sampleLen).finalTokens.drop (cfg.encode prompt).length).filter
      (fun t => decide (t ≠ eos)) ∧
  eos ∉ (run cfg s0 prompt sampleLen).tokTokens ∧
  (run cfg s0 prompt sampleLen).finalTokens.take (cfg.encode prompt).length =
    cfg.encode prompt ∧
  (run cfg s0 prompt sampleLen).written.head? = some prompt

/-- C10: throughout every successfully completing run the detokenizer history
is exactly the generated non-stop tokens in order: prompt tokens are never fed
to it (the prompt written to the sink is the original input string), and the
stop token is never passed to next_token. -/
theorem C10_detok_history {S : Type} (cfg : GenCfg S) (s0 : S) (prompt : List Char)
    (sampleLen : Nat) (eos : Nat)
    (hne : cfg.encode prompt ≠ []) (heos : cfg.eosLookup = some eos)
    (hok : (run cfg s0 prompt sampleLen).res = none) :
    RunDetokSpec cfg s0 prompt sampleLen eos := by
  have hfin := runLoop_master cfg eos (cfg.encode prompt) prompt hne sampleLen 0
    (initSt s0 (cfg.encode prompt) prompt) (initSt_inv s0 eos (cfg.encode prompt) prompt)
  obtain ⟨_, htake, _, _, ⟨r2, hwr⟩, hdetok, _, _⟩ := hfin
  unfold RunDetokSpec
  rw [run_eq_mkOut cfg s0 prompt sampleLen eos hne heos] at hok ⊢
  have hp : (runLoop cfg eos sampleLen 0 (initSt s0 (cfg.encode prompt) prompt)).panicked
      = false := by
    by_cases h : (runLoop cfg eos sampleLen 0 (initSt s0 (cfg.encode prompt) prompt)).panicked
    · rw [mkOut_res, if_pos h] at hok
      cases hok
    · simpa using h
  have hd := hdetok hp
  refine ⟨?_, ?_, ?_, ?_⟩
  · simpa using hd
  · intro hmem
    simp only [mkOut_tokTokens] at hmem
    rw [hd] at hmem
    have := (List.mem_filter.mp hmem).2
    simp at this
  · simpa using htake
  · simp [hwr]

/-- C10 witness: the theorem applied to the fake configuration that generates
two non-stop tokens. -/
theorem C10_witness : RunDetokSpec cfgOffsets () ['p'] 2 99 :=
  C10_detok_history cfgOffsets () ['p'] 2 99 (by decide) rfl (by decide)

/-! ## Claim C4 -/

/-- The stop-token scenario outcome: run succeeds, exactly one token was
generated, the sink holds only the verbatim prompt (no post-stop-token text),
the loop ended through the stop check, the stop token was never fed to the
detokenizer, and the sink was flushed. -/
def RunStopSpec {S : Type} (cfg : GenCfg S) (s0 : S) (prompt : List Char)
    (sampleLen eos : Nat) : Prop :=
  ((runLoop cfg eos sampleLen 0 (initSt s0 (cfg.encode prompt) prompt)).stopped = true →
    (run cfg s0 prompt sampleLen).res = none ∧
    (run cfg s0 prompt sampleLen).flushed = true ∧
    (run cfg s0 prompt sampleLen).finalTokens.getLast? = some eos ∧
    eos ∉ (run cfg s0 prompt sampleLen).tokTokens ∧
    (∃ w r, decodeRest cfg.decode
        (runLoop cfg eos sampleLen 0 (initSt s0 (cfg.encode prompt) prompt)).tok = some r ∧
      (run cfg s0 prompt sampleLen).written = w ++ r.toList ∧
      ∃ w2, w = prompt :: w2)) ∧
  ((run cfg s0 prompt sampleLen).res = none →
    (runLoop cfg eos sampleLen 0 (initSt s0 (cfg.encode prompt) prompt)).stopped = false →
    eos ∉ (run cfg s0 prompt sampleLen).finalTokens.drop (cfg.encode prompt).length) ∧
  (0 < sampleLen → cfg.decode [] = [] →
    (cfg.sample s0 (penStage cfg.repeat_penalty cfg.repeat_last_n
      (cfg.forward (cfg.encode prompt) 0) (cfg.encode prompt))).1 = eos →
    (run cfg s0 prompt sampleLen).res = none ∧
    (run cfg s0 prompt sampleLen).generated = 1 ∧
    (run cfg s0 prompt sampleLen).written = [prompt] ∧
    (run cfg s0 prompt sampleLen).stopped = true ∧
    (run cfg s0 prompt sampleLen).tokTokens = [] ∧
    (run cfg s0 prompt sampleLen).flushed = true)

/-- C4: if at any step the sampled token equals the designated stop token, run
requests a final flush from the detokenizer — the sink ends as its pre-stop
content extended by exactly the decode_rest fragment (any trailing stable
text) — terminates the loop successfully (Ok result, sink flushed), and
writes no text for the stop token itself (the stop token, the last history
token, is never fed to the detokenizer); conversely a run that completes
without stopping never sampled the stop token at any step, so the stop check
fires exactly when the stop token is sampled.  With a fake model that always
returns the stop token with maximal score under arg-max sampling, run
terminates after exactly one generated token with the counter at 1 and no
post-stop-token text written. -/
theorem C4_stop_token {S : Type} (cfg : GenCfg S) (s0 : S) (prompt : List Char)
    (sampleLen eos : Nat)
    (hne : cfg.encode prompt ≠ []) (heos : cfg.eosLookup = some eos) :
    RunStopSpec cfg s0 prompt sampleLen eos := by
  have hfin := runLoop_master cfg eos (cfg.encode prompt) prompt hne sampleLen 0
    (initSt s0 (cfg.encode prompt) prompt) (initSt_inv s0 eos (cfg.encode prompt) prompt)
  obtain ⟨_, _, _, _, _, hdetok, hstopOK, hnoeos⟩ := hfin
  unfold RunStopSpec
  rw [run_eq_mkOut cfg s0 prompt sampleLen eos hne heos]
  refine ⟨?_, ?_, ?_⟩
  · -- a stop at any step: successful flush, eos last, no eos text
    intro hstopped
    obtain ⟨hpanF, hlast, w, r, hdr, hwrit, w2, hw⟩ := hstopOK hstopped
    refine ⟨by simp [hpanF], by simp [hpanF], by simpa using hlast, ?_,
      w, r, hdr, by simpa using hwrit, w2, hw⟩
    have hd := hdetok hpanF
    simp only [mkOut_tokTokens]
    rw [hd]
    intro hmem
    have := (List.mem_filter.mp hmem).2
    simp at this
  · -- no stop: the stop token was never sampled at any step
    intro hok hnstop
    have hpanF : (runLoop cfg eos sampleLen 0
        (initSt s0 (cfg.encode prompt) prompt)).panicked = false := by
      by_cases h : (runLoop cfg eos sampleLen 0
          (initSt s0 (cfg.encode prompt) prompt)).panicked
      · rw [mkOut_res, if_pos h] at hok
        cases hok
      · simpa using h
    simpa using hnoeos hpanF hnstop
  · -- the always-stop scenario: exactly one generated token, prompt only
    intro hlen hdec hsam
    obtain ⟨n, rfl⟩ : ∃ n, sampleLen = n + 1 := ⟨sampleLen - 1, by omega⟩
    have hs : (sampleStep cfg 0 (initSt s0 (cfg.encode prompt) prompt)).1 = eos := by
      unfold sampleStep initSt
      rw [contextWindow_zero]
      exact hsam
    have hdr : decodeRest cfg.decode TokState.init = some none := by
      unfold decodeRest prevStableText TokState.init
      simp [hdec]
    rw [runLoop, if_pos hs]
    rw [show (pushToken cfg 0 (initSt s0 (cfg.encode prompt) prompt)).tok = TokState.init
      from rfl, hdr]
    refine ⟨rfl, rfl, ?_, rfl, rfl, rfl⟩
    show (initSt s0 (cfg.encode prompt) prompt).written ++ [] = [prompt]
    rfl

/-- C4 witness: the theorem applied concretely: the stop-at-a-step and
scenario parts to the arg-max sampler over the fake model that always scores
the stop token (index 2) maximal, and the no-stop part to the fake model that
never samples its stop token (99). -/
theorem C4_witness :
    ((run cfgStop () ['h', 'i'] 10).res = none ∧
      (run cfgStop () ['h', 'i'] 10).flushed = true ∧
      (run cfgStop () ['h', 'i'] 10).finalTokens.getLast? = some 2 ∧
      2 ∉ (run cfgStop () ['h', 'i'] 10).tokTokens ∧
      (∃ w r, decodeRest cfgStop.decode
          (runLoop cfgStop 2 10 0 (initSt () (cfgStop.encode ['h', 'i']) ['h', 'i'])).tok =
            some r ∧
        (run cfgStop () ['h', 'i'] 10).written = w ++ r.toList ∧
        ∃ w2, w = ['h', 'i'] :: w2)) ∧
    (99 ∉ (run cfgOffsets () ['p'] 2).finalTokens.drop (cfgOffsets.encode ['p']).length) ∧
    ((run cfgStop () ['h', 'i'] 10).generated = 1 ∧
      (run cfgStop () ['h', 'i'] 10).written = [['h', 'i']] ∧
      (run cfgStop () ['h', 'i'] 10).stopped = true ∧
      (run cfgStop () ['h', 'i'] 10).tokTokens = []) :=
  ⟨(C4_stop_token cfgStop () ['h', 'i'] 10 2 (by decide) rfl).1 (by decide),
   (C4_stop_token cfgOffsets () ['p'] 2 99 (by decide) rfl).2.1 (by decide) (by decide),
   ((C4_stop_token cfgStop () ['h', 'i'] 10 2 (by decide) rfl).2.2
      (by omega) rfl (by decide)).2.1,
   ((C4_stop_token cfgStop () ['h', 'i'] 10 2 (by decide) rfl).2.2
      (by omega) rfl (by decide)).2.2.1,
   ((C4_stop_token cfgStop () ['h', 'i'] 10 2 (by decide) rfl).2.2
      (by omega) rfl (by decide)).2.2.2.1,
   ((C4_stop_token cfgStop () ['h', 'i'] 10 2 (by decide) rfl).2.2
      (by omega) rfl (by decide)).2.2.2.2.1⟩

/-! ## Claim C5 -/

/-- C5: whenever encoding the input yields an empty prompt token sequence, run
fails with the empty-prompt error before invoking the model (no trace entry),
before writing anything to the sink (not even the prompt, and no flush), and
before generating any token. -/
theorem C5_empty_prompt {S : Type} (cfg : GenCfg S) (s0 : S) (prompt : List Char)
    (sampleLen : Nat) (h : cfg.encode prompt = []) :
    run cfg s0 prompt sampleLen =
      { res := some .emptyPrompt
        written := []
        flushed := false
        generated := 0
        trace := []
        finalTokens := []
        tokTokens := []
        logged := none
        stopped := false } := by
  unfold run
  rw [h]
  rfl

/-- A configuration whose encoder returns no tokens for any input. -/
def cfgEmpty : GenCfg Unit :=
  { encode := fun _ => []
    eosLookup := some 0
    repeat_penalty := 1
    repeat_last_n := 0
    forward := fun _ _ => []
    sample := fun s _ => (0, s)
    alnum := Char.isAlphanum
    decode := fun _ => [] }

/-- C5 witness: the theorem applied to the empty-encoding configuration. -/
theorem C5_witness :
    run cfgEmpty () ['x'] 3 =
      { res := some .emptyPrompt
        written := []
        flushed := false
        generated := 0
        trace := []
        finalTokens := []
        tokTokens := []
        logged := none
        stopped := false } :=
  C5_empty_prompt cfgEmpty () ['x'] 3 rfl

/-! ## Claim C6 -/

theorem applyRepeatPenaltyAux_one (w : List Nat) (i : Nat) (l : List ℚ) :
    applyRepeatPenaltyAux 1 w i l = l := by
  induction l generalizing i with
  | nil => rfl
  | cons s rest ih =>
    unfold applyRepeatPenaltyAux penalizeAt
    rw [ih]
    by_cases hm : i ∈ w
    · rw [if_pos hm]
      by_cases hp : (0 : ℚ) < s
      · rw [if_pos hp, div_one]
      · rw [if_neg hp, mul_one]
    · rw [if_neg hm]

/-- C6: with a repetition-penalty factor of 1 the penalty stage is the
identity transform: the scores reaching the sampler equal the model scores
unchanged for every score vector and every trailing history window, both
through the short-circuit in run and through the penalty kernel itself. -/
theorem C6_penalty_identity (lastN : Nat) (logits : List ℚ) (toks window : List Nat) :
    penStage 1 lastN logits toks = logits ∧
    apply_repeat_penalty 1 logits window = logits := by
  constructor
  · unfold penStage
    rw [if_pos rfl]
  · exact applyRepeatPenaltyAux_one window 0 logits

/-! ## Claim C7 -/

/-- C7 counterexample: two successful runs with different generated-token
counts (1 and 2) hand the caller identical Result values (Ok of unit), so the
value returned by run contains neither the generated count nor any elapsed
time: run does not return a GenerationStats value. -/
theorem C7_counterexample :
    (run cfgStop () ['h', 'i'] 10).res = (run cfgOffsets () ['p'] 2).res ∧
    (run cfgStop () ['h', 'i'] 10).generated = 1 ∧
    (run cfgOffsets () ['p'] 2).generated = 2 := by
  refine ⟨by decide, by decide, by decide⟩

/-- C7 (amended): on every successful completion (stop token or exhausted step
budget) run flushes the sink and logs the generated-token count and rate, but
returns Ok of unit to its caller rather than a statistics value. -/
theorem C7_flush_and_log {S : Type} (cfg : GenCfg S) (s0 : S) (prompt : List Char)
    (sampleLen : Nat)
    (hok : (run cfg s0 prompt sampleLen).res = none) :
    (run cfg s0 prompt sampleLen).flushed = true ∧
    (run cfg s0 prompt sampleLen).logged = some (run cfg s0 prompt sampleLen).generated := by
  unfold run at hok ⊢
  by_cases hemp : (cfg.encode prompt).isEmpty = true
  · rw [if_pos hemp] at hok
    cases hok
  · rw [if_neg hemp] at hok ⊢
    cases heos : cfg.eosLookup with
    | none =>
      rw [heos] at hok
      simp [errOut] at hok
    | some eos =>
      rw [heos] at hok
      simp only [] at hok ⊢
      by_cases hp : (runLoop cfg eos sampleLen 0 (initSt s0 (cfg.encode prompt) prompt)).panicked
      · rw [mkOut_res, if_pos hp] at hok
        cases hok
      · have hp2 : (runLoop cfg eos sampleLen 0
            (initSt s0 (cfg.encode prompt) prompt)).panicked = false := by
          simpa using hp
        rw [mkOut_flushed, mkOut_logged, mkOut_generated, hp2, if_neg (by simp)]
        exact ⟨rfl, rfl⟩

/-- C7 witness: the amended theorem applied to the stop-token scenario run. -/
theorem C7_witness :
    (run cfgStop () ['h', 'i'] 10).flushed = true ∧
    (run cfgStop () ['h', 'i'] 10).logged = some (run cfgStop () ['h', 'i'] 10).generated :=
  C7_flush_and_log cfgStop () ['h', 'i'] 10 (by decide)

end AiCli
